import Mathlib

/-!
Verification development for the qdrant shard rebalancer script
(`qdrant-shard-rebalancer.py`).  The balance planner (`rebalance_shards`,
lines 38-91) is embedded shallowly: the Python dict `peer_shard_map`
becomes an association list from peer id to shard-id list, the three
nested loops become structural recursions, and the float target
computation `int(sum(...) / len(...))` is modelled by exact rational
division followed by IEEE-754 binary64 round-to-nearest-even and
truncation toward zero.
-/

/-! ### Model of Python's float target computation

Python line 44 `average_shards = sum(all_shard_counts) / len(all_shard_counts)`
performs true division of two ints, which CPython computes as the exact
rational quotient correctly rounded to an IEEE-754 binary64 value
(round to nearest, ties to even).  Line 45 `int(average_shards)`
truncates toward zero.  `fl64` below models the rounding with an
unbounded exponent range: the script's quotients are nonnegative and the
claims considered here never reach the binary64 overflow or subnormal
thresholds, where the model would diverge from a real double.
-/

/-- Round a rational to the nearest integer, ties to the even neighbour,
as IEEE-754 round-to-nearest-even does at integer granularity. -/
def roundEven (x : ℚ) : ℤ :=
  if Int.fract x < 1/2 then ⌊x⌋
  else if 1/2 < Int.fract x then ⌊x⌋ + 1
  else if ⌊x⌋ % 2 = 0 then ⌊x⌋ else ⌊x⌋ + 1

/-- Python's `int()` on a float value: truncation toward zero. -/
def pyInt (x : ℚ) : ℤ :=
  if 0 ≤ x then ⌊x⌋ else -⌊-x⌋

/-- Correctly rounded binary64 value of a nonnegative rational: scale into
the 53-bit significand window `[2^52, 2^53)` using the floor base-2
logarithm, round to nearest (ties to even), and scale back.  Nonpositive
inputs (here only the quotient `0`) map to `0`. -/
def fl64 (q : ℚ) : ℚ :=
  if 0 < q then
    (roundEven (q * (2:ℚ) ^ ((52:ℤ) - Int.log 2 q)) : ℚ) * (2:ℚ) ^ (Int.log 2 q - 52)
  else 0

/-! ### The topology model

`peer_shard_map` is a Python dict from peer id to a list of shard ids,
in insertion order; we embed it as an association list.  Python dict
keys are unique; theorems that need this carry a `keysNodup` hypothesis.
-/

/-- A move operation `(from_peer, to_peer, shard_id)`, exactly the tuple
appended to `rebalance_operations` at line 63. -/
abbrev Move := ℤ × ℤ × ℤ

/-- The peer-to-shards map (`peer_shard_map`): an association list from
peer id to the ordered list of shard ids it holds. -/
abbrev Topology := List (ℤ × List ℤ)

/-- The peer ids of a topology (the dict's keys). -/
def keys (m : Topology) : List ℤ := m.map Prod.fst

/-- The dict-key uniqueness guaranteed by Python dictionaries. -/
abbrev keysNodup (m : Topology) : Prop := (m.map Prod.fst).Nodup

/-- `peer_shard_map[p]`: the shard list of peer `p` (first matching
entry; `[]` for an absent key, which the script never looks up). -/
def lookupShards : Topology → ℤ → List ℤ
  | [], _ => []
  | e :: rest, p => if e.1 = p then e.2 else lookupShards rest p

/-- `peer_shard_map[p] = v`: replace the shard list stored under key `p`. -/
def setShards (m : Topology) (p : ℤ) (v : List ℤ) : Topology :=
  m.map (fun e => if e.1 = p then (e.1, v) else e)

/-- `sum(all_shard_counts)` (line 44): the total number of shard
assignments in the map. -/
def totalShards (m : Topology) : ℕ := (m.map (fun e => e.2.length)).sum

/-- Lines 44-45: `average_shards = sum(...) / len(...)` as a binary64
value. -/
def average_shards (m : Topology) : ℚ :=
  fl64 ((totalShards m : ℚ) / (m.length : ℚ))

/-- Line 45: `average_shards_per_peer = int(average_shards)`. -/
def average_shards_per_peer (m : Topology) : ℤ :=
  pyInt (average_shards m)

/-- Line 47: peers whose shard count is strictly below the target. -/
def underfilled_peers (t : ℤ) (m : Topology) : List ℤ :=
  (m.filter (fun e => decide ((e.2.length : ℤ) < t))).map Prod.fst

/-- Line 48: peers whose shard count is strictly above the target. -/
def overfilled_peers (t : ℤ) (m : Topology) : List ℤ :=
  (m.filter (fun e => decide (t < (e.2.length : ℤ)))).map Prod.fst

/-- The inner loop (lines 57-60): scan the underfilled peers in order and
return the first one satisfying the three-part condition of lines 58-60
for moving `s` from `src`, or `none` if no candidate matches. -/
def findDest (t : ℤ) (m : Topology) (src s : ℤ) : List ℤ → Option ℤ
  | [] => none
  | u :: us =>
    if ((lookupShards m u).length : ℤ) < t ∧ s ∉ lookupShards m u ∧
        t < ((lookupShards m src).length : ℤ) then
      some u
    else
      findDest t m src s us

/-- Intermediate planner state: the simulated topology, and for every
emitted move the simulated topology at the moment its guard was checked
(just before the two updates of lines 65-66). -/
structure PState where
  topo : Topology
  trace : List (Move × Topology)

/-- The middle loop (line 56): iterate over a snapshot of `src`'s shard
list; on a match (line 63) record the move, append the shard to the
destination (line 65) and remove it from the source (line 66; Python's
`list.remove`, which removes the first occurrence, becomes
`List.erase`). -/
def processShards (t : ℤ) (under : List ℤ) (src : ℤ) :
    List ℤ → PState → PState
  | [], st => st
  | s :: rest, st =>
    match findDest t st.topo src s under with
    | none => processShards t under src rest st
    | some u =>
      let m1 := setShards st.topo u (lookupShards st.topo u ++ [s])
      let m2 := setShards m1 src ((lookupShards m1 src).erase s)
      processShards t under src rest ⟨m2, st.trace ++ [((src, u, s), st.topo)]⟩

/-- The outer loop (line 55): process each overfilled peer in turn, the
snapshot of its shard list (`[:]`, line 56) taken when the peer is
reached. -/
def processPeers (t : ℤ) (under : List ℤ) :
    List ℤ → PState → PState
  | [], st => st
  | p :: ps, st =>
    processPeers t under ps (processShards t under p (lookupShards st.topo p) st)

/-- The whole planning phase of `rebalance_shards` for a nonempty map:
classify peers against the target, then run the nested loops. -/
def plan_core (t : ℤ) (m : Topology) : PState :=
  processPeers t (underfilled_peers t m) (overfilled_peers t m) ⟨m, []⟩

/-- `rebalance_operations` as returned by the planning phase: empty when
the map is empty (lines 40-42), otherwise the moves recorded by the
nested loops in emission order. -/
def rebalance_plan (m : Topology) : List Move :=
  if m.isEmpty then []
  else ((plan_core (average_shards_per_peer m) m).trace).map Prod.fst

/-- The simulated topology left in `peer_shard_map` after planning. -/
def rebalance_sim (m : Topology) : Topology :=
  if m.isEmpty then m
  else (plan_core (average_shards_per_peer m) m).topo

/-- Python's `list.remove`: removes the first occurrence of `x`, raising
`ValueError` (modelled as `none`) if `x` is absent. -/
def pyRemove (l : List ℤ) (x : ℤ) : Option (List ℤ) :=
  if x ∈ l then some (l.erase x) else none

/-! ### The executor (lines 69-91) -/

/-- Observable cluster interactions of the execution loop: a move POST
request (line 87), and the reported per-operation outcome (lines 88-91). -/
inductive ExecEvent where
  | request : Move → ExecEvent
  | success : Move → ExecEvent
  | failure : Move → ℕ → String → ExecEvent
deriving DecidableEq

/-- The execution loop (lines 77-91): one POST per operation, strictly in
plan order; `respond` models the cluster's HTTP response (status code and
body) to the `i`-th request.  A 200 status reports success, anything else
reports failure with status and body; either way the loop continues. -/
def execute_moves (respond : ℕ → Move → ℕ × String) : ℕ → List Move → List ExecEvent
  | _, [] => []
  | i, mv :: rest =>
    ExecEvent.request mv ::
      (if (respond i mv).1 = 200 then [ExecEvent.success mv]
       else [ExecEvent.failure mv (respond i mv).1 (respond i mv).2]) ++
      execute_moves respond (i + 1) rest

/-- `rebalance_shards` end to end: the reported plan and the cluster
interactions.  An empty plan returns before the dry-run check (lines
69-71); with dry-run the function returns before the POST loop (lines
73-75). -/
def run_rebalance (m : Topology) (dryRun : Bool)
    (respond : ℕ → Move → ℕ × String) : List Move × List ExecEvent :=
  let plan := rebalance_plan m
  (plan, if plan = [] then [] else if dryRun then [] else execute_moves respond 0 plan)

/-- The move requests actually issued to the cluster, in order. -/
def requestsOf (evs : List ExecEvent) : List Move :=
  evs.filterMap (fun e => match e with
    | ExecEvent.request mv => some mv
    | _ => none)

/-- All shard assignments of the cluster as a multiset. -/
def flattenShards (m : Topology) : Multiset ℤ :=
  (m.map (fun e => (e.2 : Multiset ℤ))).sum

/-! ## Properties of the float model -/

/-- Rounding to the nearest integer moves a rational by at most `1/2`. -/
theorem roundEven_close (x : ℚ) : |(roundEven x : ℚ) - x| ≤ 1/2 := by
  have h0 : 0 ≤ Int.fract x := Int.fract_nonneg x
  have h1 : Int.fract x < 1 := Int.fract_lt_one x
  have hfl : (⌊x⌋ : ℚ) = x - Int.fract x := (Int.self_sub_fract x).symm
  unfold roundEven
  split_ifs with hc1 hc2 hc3 <;>
    (rw [abs_le] <;> constructor <;> push_cast <;> rw [hfl] <;> linarith)

/-- Rounding an integer returns it unchanged. -/
theorem roundEven_intCast (n : ℤ) : roundEven (n : ℚ) = n := by
  unfold roundEven
  rw [Int.fract_intCast, Int.floor_intCast]
  norm_num

/-- Rounding preserves nonnegativity. -/
theorem roundEven_nonneg (x : ℚ) (hx : 0 ≤ x) : 0 ≤ roundEven x := by
  have h : 0 ≤ ⌊x⌋ := Int.floor_nonneg.mpr hx
  unfold roundEven
  split_ifs <;> omega

theorem fl64_zero : fl64 0 = 0 := by
  simp [fl64]

theorem fl64_nonneg (q : ℚ) (h : 0 ≤ q) : 0 ≤ fl64 q := by
  unfold fl64
  split_ifs with hq
  · have h1 : (0:ℚ) ≤ (roundEven (q * (2:ℚ) ^ ((52:ℤ) - Int.log 2 q)) : ℚ) := by
      exact_mod_cast roundEven_nonneg _ (by positivity)
    have h2 : (0:ℚ) ≤ (2:ℚ) ^ (Int.log 2 q - 52) := by positivity
    exact mul_nonneg h1 h2
  · exact le_refl 0

/-- Half-ulp error bound of the binary64 rounding: the rounded value is
within `2 ^ (⌊log₂ q⌋ - 53)` of the exact one. -/
theorem fl64_close (q : ℚ) (hq : 0 < q) :
    |fl64 q - q| ≤ (2:ℚ) ^ (Int.log 2 q - 53) := by
  have h2 : (2:ℚ) ≠ 0 := two_ne_zero
  set e : ℤ := Int.log 2 q with he
  set x : ℚ := q * (2:ℚ) ^ ((52:ℤ) - e) with hx
  have hq_back : x * (2:ℚ) ^ (e - 52) = q := by
    rw [hx, mul_assoc, ← zpow_add₀ h2]
    norm_num
  have hkey : fl64 q - q = ((roundEven x : ℚ) - x) * (2:ℚ) ^ (e - 52) := by
    unfold fl64
    rw [if_pos hq, ← he, ← hx, sub_mul, hq_back]
  have hpow : (0:ℚ) < (2:ℚ) ^ (e - 52) := by positivity
  rw [hkey, abs_mul, abs_of_pos hpow]
  have hle := roundEven_close x
  have hmul : |(roundEven x : ℚ) - x| * (2:ℚ) ^ (e - 52) ≤ (1/2) * (2:ℚ) ^ (e - 52) :=
    mul_le_mul_of_nonneg_right hle (le_of_lt hpow)
  have hconv : (1/2) * (2:ℚ) ^ (e - 52) = (2:ℚ) ^ (e - 53) := by
    have h1 : (1/2 : ℚ) = (2:ℚ) ^ (-1 : ℤ) := by norm_num
    rw [h1, ← zpow_add₀ h2]
    congr 1
    ring
  rw [hconv] at hmul
  exact hmul

/-- When the scaled significand is an integer the value is exactly
representable and rounding returns it unchanged. -/
theorem fl64_exact (q : ℚ) (hq : 0 < q) (k : ℤ)
    (hk : q * (2:ℚ) ^ ((52:ℤ) - Int.log 2 q) = (k : ℚ)) : fl64 q = q := by
  have h2 : (2:ℚ) ≠ 0 := two_ne_zero
  unfold fl64
  rw [if_pos hq, hk, roundEven_intCast, ← hk, mul_assoc, ← zpow_add₀ h2]
  norm_num

theorem two_zpow_natCast (k : ℕ) : (2:ℚ) ^ ((k:ℕ):ℤ) = ((2 ^ k : ℕ) : ℚ) := by
  rw [zpow_natCast]
  norm_cast

/-- If the rounding error bound `2 ^ (e-53)` exceeds `1/b` while
`2 ^ e ≤ a / b`, the numerator is above `2^53`. -/
theorem pow53_lt_of (a b : ℚ) (e : ℤ) (hb : 0 < b)
    (hlog : (2:ℚ) ^ e ≤ a / b) (h1b : 1 / b < (2:ℚ) ^ (e - 53)) :
    (2:ℚ) ^ ((53:ℕ):ℤ) < a := by
  have h2 : (2:ℚ) ≠ 0 := two_ne_zero
  have hba : (2:ℚ) ^ e * b ≤ a := (le_div_iff hb).mp hlog
  rw [zpow_sub₀ h2] at h1b
  rw [div_lt_div_iff hb (by positivity)] at h1b
  have : ((53:ℕ):ℤ) = (53:ℤ) := rfl
  rw [this]
  nlinarith [h1b, hba]

/-- Non-strict variant of `pow53_lt_of`. -/
theorem pow53_le_of (a b : ℚ) (e : ℤ) (hb : 0 < b)
    (hlog : (2:ℚ) ^ e ≤ a / b) (h1b : 1 / b ≤ (2:ℚ) ^ (e - 53)) :
    (2:ℚ) ^ ((53:ℕ):ℤ) ≤ (2:ℚ) ^ e * b := by
  have h2 : (2:ℚ) ≠ 0 := two_ne_zero
  rw [zpow_sub₀ h2] at h1b
  rw [div_le_div_iff hb (by positivity)] at h1b
  have : ((53:ℕ):ℤ) = (53:ℤ) := rfl
  rw [this]
  nlinarith [h1b]

/-- The target computation of lines 44-45: for totals up to `2^53` the
binary64 detour through `sum / len` followed by `int(...)` agrees with
exact floor division. -/
theorem pyInt_fl64_div (a b : ℕ) (hb : 0 < b) (ha : a ≤ 2 ^ 53) :
    pyInt (fl64 ((a : ℚ) / (b : ℚ))) = ((a / b : ℕ) : ℤ) := by
  have h2 : (2:ℚ) ≠ 0 := two_ne_zero
  have hbQ : (0:ℚ) < (b:ℚ) := by exact_mod_cast hb
  rcases Nat.eq_zero_or_pos a with ha0 | hapos
  · subst ha0
    norm_num [fl64_zero, pyInt]
  have hq : 0 < (a:ℚ) / (b:ℚ) := div_pos (by exact_mod_cast hapos) hbQ
  set q : ℚ := (a:ℚ) / (b:ℚ) with hqdef
  set e : ℤ := Int.log 2 q with hedef
  have hlog : (2:ℚ) ^ e ≤ q := by
    have := Int.zpow_log_le_self (b := 2) (R := ℚ) (by norm_num) hq
    rw [hedef]
    exact_mod_cast this
  set n : ℕ := a / b with hndef
  have hmod := Nat.div_add_mod a b
  have haQle : (a:ℚ) ≤ (2:ℚ) ^ ((53:ℕ):ℤ) := by
    rw [two_zpow_natCast]
    exact_mod_cast ha
  rcases Nat.eq_zero_or_pos (a % b) with hr0 | hrpos
  · -- exact division: the quotient is an integer ≤ 2^53, hence representable
    have hab : b * n = a := by
      rw [hndef]
      exact Nat.mul_div_cancel' (Nat.dvd_of_mod_eq_zero hr0)
    have hqn : q = (n:ℚ) := by
      rw [hqdef]
      rw [show (a:ℚ) = (b:ℚ) * (n:ℚ) by exact_mod_cast hab.symm]
      field_simp
    have hn1 : 0 < n := by
      rcases Nat.eq_zero_or_pos n with h | h
      · rw [h, Nat.mul_zero] at hab
        omega
      · exact h
    have hnle : n ≤ 2 ^ 53 := le_trans (Nat.div_le_self a b) ha
    have hfl : fl64 q = q := by
      have hele : e ≤ 53 := by
        by_contra hcon
        push_neg at hcon
        have h54 : (2:ℚ) ^ ((54:ℕ):ℤ) ≤ (2:ℚ) ^ e :=
          zpow_le_zpow_right₀ (by norm_num) (by omega)
        have hle54 : (2:ℚ) ^ ((54:ℕ):ℤ) ≤ (n:ℚ) := le_trans h54 (hqn ▸ hlog)
        rw [two_zpow_natCast] at hle54
        have hc1 : (2 ^ 54 : ℕ) ≤ n := by exact_mod_cast hle54
        have hc2 : (2 ^ 53 : ℕ) < (2 ^ 54 : ℕ) := by norm_num
        omega
      rcases lt_or_eq_of_le hele with he52 | he53
      · apply fl64_exact q hq ((n : ℤ) * 2 ^ ((52 - e).toNat))
        rw [← hedef, hqn]
        push_cast
        rw [← zpow_natCast (2:ℚ) ((52:ℤ) - e).toNat, Int.toNat_of_nonneg (by omega)]
      · have h53n : (2:ℚ) ^ e ≤ (n:ℚ) := hqn ▸ hlog
        rw [he53] at h53n
        have h53c : ((2 ^ 53 : ℕ) : ℚ) ≤ (n:ℚ) := by
          rw [← two_zpow_natCast]
          exact_mod_cast h53n
        have hn53 : n = 2 ^ 53 := le_antisymm hnle (by exact_mod_cast h53c)
        apply fl64_exact q hq (2 ^ 52)
        rw [← hedef, hqn, hn53, he53]
        have hexp : ((52:ℤ) - 53) = (-1 : ℤ) := by norm_num
        rw [hexp]
        push_cast
        norm_num [zpow_neg, zpow_one]
    rw [hfl, hqn, pyInt, if_pos (by positivity)]
    rw [Int.floor_natCast]
  · -- inexact division: the rounded value stays inside the unit interval
    set r : ℕ := a % b with hrdef
    have hrb : r < b := Nat.mod_lt a hb
    have hqeq : q = (n:ℚ) + (r:ℚ) / (b:ℚ) := by
      rw [hqdef]
      rw [show (a:ℚ) = (b:ℚ) * (n:ℚ) + (r:ℚ) by exact_mod_cast hmod.symm]
      field_simp
      ring
    have herr := fl64_close q hq
    rw [← hedef, abs_le] at herr
    have hr1 : (1:ℚ) ≤ (r:ℚ) := by exact_mod_cast hrpos
    have hbr1 : (1:ℚ) ≤ (b:ℚ) - (r:ℚ) := by
      have : (r:ℚ) + 1 ≤ (b:ℚ) := by exact_mod_cast hrb
      linarith
    have hlow : (n:ℚ) ≤ fl64 q := by
      by_contra hcon
      push_neg at hcon
      have h1b : 1 / (b:ℚ) < (2:ℚ) ^ (e - 53) := by
        have hgap : (r:ℚ) / (b:ℚ) < q - fl64 q := by
          rw [hqeq] at hcon ⊢
          linarith
        have hub : q - fl64 q ≤ (2:ℚ) ^ (e - 53) := by linarith [herr.1]
        have hbound : 1 / (b:ℚ) ≤ (r:ℚ) / (b:ℚ) := by gcongr
        linarith
      have hgt := pow53_lt_of (a:ℚ) (b:ℚ) e hbQ (by rw [← hqdef]; exact hlog) h1b
      linarith
    have hup : fl64 q < (n:ℚ) + 1 := by
      by_contra hcon
      push_neg at hcon
      have h1b : 1 / (b:ℚ) ≤ (2:ℚ) ^ (e - 53) := by
        have hq_sub : (n:ℚ) + 1 - q = ((b:ℚ) - (r:ℚ)) / (b:ℚ) := by
          rw [hqeq, sub_div, div_self (ne_of_gt hbQ)]
          ring
        have hgap : ((b:ℚ) - (r:ℚ)) / (b:ℚ) ≤ fl64 q - q := by
          rw [← hq_sub]
          linarith
        have hbound : 1 / (b:ℚ) ≤ ((b:ℚ) - (r:ℚ)) / (b:ℚ) := by gcongr
        linarith [herr.2]
      have h53b := pow53_le_of (a:ℚ) (b:ℚ) e hbQ (by rw [← hqdef]; exact hlog) h1b
      have hba : (2:ℚ) ^ e * (b:ℚ) ≤ (a:ℚ) := (le_div_iff hbQ).mp (by rw [← hqdef]; exact hlog)
      have heqa : (2:ℚ) ^ e * (b:ℚ) = (a:ℚ) := le_antisymm hba (by linarith)
      have hq2e : q = (2:ℚ) ^ e := by
        rw [hqdef, ← heqa, mul_div_assoc, div_self (ne_of_gt hbQ), mul_one]
      have hfl : fl64 q = q := by
        apply fl64_exact q hq (2 ^ 52)
        rw [← hedef, hq2e, ← zpow_add₀ h2]
        norm_num
      have hqlt : q < (n:ℚ) + 1 := by
        have : (r:ℚ) / (b:ℚ) < 1 := (div_lt_one hbQ).mpr (by exact_mod_cast hrb)
        rw [hqeq]
        linarith
      rw [hfl] at hcon
      linarith
    have hfloor : ⌊fl64 q⌋ = (n:ℤ) := by
      rw [Int.floor_eq_iff]
      constructor
      · exact_mod_cast hlow
      · push_cast
        exact hup
    rw [pyInt, if_pos (fl64_nonneg q (le_of_lt hq)), hfloor]

/-! ## Properties of the embedding -/

/-- For any topology whose total is at most `2^53`, the planner's target
is exact floor division of total shards by peer count. -/
theorem average_eval (m : Topology) (hb : 0 < m.length)
    (ha : totalShards m ≤ 2 ^ 53) :
    average_shards_per_peer m = ((totalShards m / m.length : ℕ) : ℤ) := by
  unfold average_shards_per_peer average_shards
  exact pyInt_fl64_div (totalShards m) m.length hb ha

theorem lookupShards_cons (e : ℤ × List ℤ) (rest : Topology) (p : ℤ) :
    lookupShards (e :: rest) p = if e.1 = p then e.2 else lookupShards rest p := rfl

theorem findDest_cons (t : ℤ) (m : Topology) (src s u : ℤ) (us : List ℤ) :
    findDest t m src s (u :: us) =
      if ((lookupShards m u).length : ℤ) < t ∧ s ∉ lookupShards m u ∧
          t < ((lookupShards m src).length : ℤ) then some u
      else findDest t m src s us := rfl

/-- Updating one key leaves every other key's shard list unchanged. -/
theorem lookupShards_setShards_ne (m : Topology) (k k' : ℤ) (v : List ℤ)
    (h : k' ≠ k) : lookupShards (setShards m k v) k' = lookupShards m k' := by
  induction m with
  | nil => rfl
  | cons e rest ih =>
    by_cases he : e.1 = k
    · have hne : ¬ e.1 = k' := by
        rw [he]
        exact fun hc => h hc.symm
      simp only [setShards, List.map_cons, if_pos he, lookupShards_cons, if_neg hne]
      exact ih
    · by_cases he' : e.1 = k'
      · simp only [setShards, List.map_cons, if_neg he, lookupShards_cons, if_pos he']
      · simp only [setShards, List.map_cons, if_neg he, lookupShards_cons, if_neg he']
        exact ih

/-- Updating a key does not change the key list. -/
theorem keys_setShards (m : Topology) (k : ℤ) (v : List ℤ) :
    (setShards m k v).map Prod.fst = m.map Prod.fst := by
  unfold setShards
  rw [List.map_map]
  apply List.map_congr_left
  intro e _
  by_cases he : e.1 = k <;> simp [he]

/-- A present key's entry is the pair of the key and its looked-up list. -/
theorem lookupShards_mem (m : Topology) (k : ℤ) (hk : k ∈ m.map Prod.fst) :
    (k, lookupShards m k) ∈ m := by
  induction m with
  | nil => simp at hk
  | cons e rest ih =>
    by_cases he : e.1 = k
    · rw [lookupShards_cons, if_pos he, ← he]
      exact List.mem_cons_self e rest
    · rw [lookupShards_cons, if_neg he]
      right
      apply ih
      simp only [List.map_cons, List.mem_cons] at hk
      rcases hk with h | h
      · exact absurd h.symm he
      · exact h

/-- A successful inner-loop scan returns a member of the underfilled list
satisfying the full guard of lines 58-60. -/
theorem findDest_some (t : ℤ) (m : Topology) (src s : ℤ) (under : List ℤ)
    (u : ℤ) (h : findDest t m src s under = some u) :
    u ∈ under ∧ ((lookupShards m u).length : ℤ) < t ∧
      s ∉ lookupShards m u ∧ t < ((lookupShards m src).length : ℤ) := by
  induction under with
  | nil => simp [findDest] at h
  | cons v vs ih =>
    rw [findDest_cons] at h
    split_ifs at h with hc
    · cases h
      exact ⟨List.mem_cons_self _ _, hc.1, hc.2.1, hc.2.2⟩
    · rcases ih h with ⟨h1, h2, h3, h4⟩
      exact ⟨List.mem_cons_of_mem v h1, h2, h3, h4⟩

/-- The chosen destination is never the source: their simulated counts
sit on opposite sides of the target. -/
theorem findDest_ne_src (t : ℤ) (m : Topology) (src s : ℤ) (under : List ℤ)
    (u : ℤ) (h : findDest t m src s under = some u) : u ≠ src := by
  rcases findDest_some t m src s under u h with ⟨-, h2, -, h4⟩
  intro he
  rw [he] at h2
  omega

theorem processShards_cons_none (t : ℤ) (under : List ℤ) (src s : ℤ)
    (rest : List ℤ) (st : PState)
    (hfd : findDest t st.topo src s under = none) :
    processShards t under src (s :: rest) st = processShards t under src rest st := by
  simp only [processShards]
  rw [hfd]

theorem processShards_cons_some (t : ℤ) (under : List ℤ) (src s : ℤ)
    (rest : List ℤ) (st : PState) (u : ℤ)
    (hfd : findDest t st.topo src s under = some u) :
    processShards t under src (s :: rest) st =
      processShards t under src rest
        ⟨setShards (setShards st.topo u (lookupShards st.topo u ++ [s])) src
            ((lookupShards (setShards st.topo u (lookupShards st.topo u ++ [s])) src).erase s),
          st.trace ++ [((src, u, s), st.topo)]⟩ := by
  simp only [processShards]
  rw [hfd]

theorem processPeers_cons (t : ℤ) (under : List ℤ) (p : ℤ) (ps : List ℤ)
    (st : PState) :
    processPeers t under (p :: ps) st =
      processPeers t under ps (processShards t under p (lookupShards st.topo p) st) := rfl

/-- With no underfilled peer the middle loop does nothing. -/
theorem processShards_under_nil (t : ℤ) (src : ℤ) (snap : List ℤ) (st : PState) :
    processShards t [] src snap st = st := by
  induction snap with
  | nil => rfl
  | cons s rest ih =>
    rw [processShards_cons_none t [] src s rest st rfl]
    exact ih

/-- With no underfilled peer the whole nested loop does nothing. -/
theorem processPeers_under_nil (t : ℤ) (over : List ℤ) (st : PState) :
    processPeers t [] over st = st := by
  induction over generalizing st with
  | nil => rfl
  | cons p ps ih =>
    rw [processPeers_cons, processShards_under_nil]
    exact ih st

/-- Every trace entry of the middle loop is either inherited or a newly
emitted move whose recorded state satisfies the full guard of lines
58-60, with the source being the processed peer and the destination a
member of the underfilled list. -/
theorem processShards_trace_mem (t : ℤ) (under : List ℤ) (src : ℤ)
    (snap : List ℤ) (st : PState) (p : Move × Topology)
    (hp : p ∈ (processShards t under src snap st).trace) :
    p ∈ st.trace ∨
      (p.1.1 = src ∧ p.1.2.1 ∈ under ∧
        ((lookupShards p.2 p.1.2.1).length : ℤ) < t ∧
        p.1.2.2 ∉ lookupShards p.2 p.1.2.1 ∧
        t < ((lookupShards p.2 p.1.1).length : ℤ)) := by
  induction snap generalizing st with
  | nil => exact Or.inl hp
  | cons s rest ih =>
    cases hfd : findDest t st.topo src s under with
    | none =>
      rw [processShards_cons_none t under src s rest st hfd] at hp
      exact ih st hp
    | some u =>
      rw [processShards_cons_some t under src s rest st u hfd] at hp
      rcases ih _ hp with hin | hnew
      · simp only [List.mem_append, List.mem_singleton] at hin
        rcases hin with h | h
        · exact Or.inl h
        · subst h
          rcases findDest_some t st.topo src s under u hfd with ⟨hu, h1, h2, h3⟩
          exact Or.inr ⟨rfl, hu, h1, h2, h3⟩
      · exact Or.inr hnew

/-- Outer-loop version of `processShards_trace_mem`: every emitted move's
source is an overfilled peer and its destination an underfilled peer, and
the guard held in the recorded state. -/
theorem processPeers_trace_mem (t : ℤ) (under : List ℤ) (over : List ℤ)
    (st : PState) (p : Move × Topology)
    (hp : p ∈ (processPeers t under over st).trace) :
    p ∈ st.trace ∨
      (p.1.1 ∈ over ∧ p.1.2.1 ∈ under ∧
        ((lookupShards p.2 p.1.2.1).length : ℤ) < t ∧
        p.1.2.2 ∉ lookupShards p.2 p.1.2.1 ∧
        t < ((lookupShards p.2 p.1.1).length : ℤ)) := by
  induction over generalizing st with
  | nil => exact Or.inl hp
  | cons q qs ih =>
    rw [processPeers_cons] at hp
    rcases ih _ hp with hin | hnew
    · rcases processShards_trace_mem t under q (lookupShards st.topo q) st p hin with
        h | ⟨h1, h2, h3, h4, h5⟩
      · exact Or.inl h
      · exact Or.inr ⟨h1 ▸ List.mem_cons_self _ _, h2, h3, h4, h5⟩
    · rcases hnew with ⟨h1, h2, h3, h4, h5⟩
      exact Or.inr ⟨List.mem_cons_of_mem _ h1, h2, h3, h4, h5⟩

/-- Updating a present key stores exactly the new list under it. -/
theorem lookupShards_setShards_self (m : Topology) (k : ℤ) (v : List ℤ)
    (hk : k ∈ m.map Prod.fst) : lookupShards (setShards m k v) k = v := by
  induction m with
  | nil => simp at hk
  | cons e rest ih =>
    by_cases he : e.1 = k
    · simp only [setShards, List.map_cons, if_pos he, lookupShards_cons]
    · simp only [setShards, List.map_cons, if_neg he, lookupShards_cons, if_neg he]
      apply ih
      simp only [List.map_cons, List.mem_cons] at hk
      rcases hk with h | h
      · exact absurd h.symm he
      · exact h

/-- The middle loop never changes the key list of the simulated map. -/
theorem keys_processShards (t : ℤ) (under : List ℤ) (src : ℤ)
    (snap : List ℤ) (st : PState) :
    (processShards t under src snap st).topo.map Prod.fst = st.topo.map Prod.fst := by
  induction snap generalizing st with
  | nil => rfl
  | cons s rest ih =>
    cases hfd : findDest t st.topo src s under with
    | none =>
      rw [processShards_cons_none t under src s rest st hfd]
      exact ih st
    | some u =>
      rw [processShards_cons_some t under src s rest st u hfd]
      rw [ih]
      simp only [keys_setShards]

/-- The outer loop never changes the key list of the simulated map. -/
theorem keys_processPeers (t : ℤ) (under over : List ℤ) (st : PState) :
    (processPeers t under over st).topo.map Prod.fst = st.topo.map Prod.fst := by
  induction over generalizing st with
  | nil => rfl
  | cons q qs ih =>
    rw [processPeers_cons, ih, keys_processShards]

/-- Presence invariant of the middle loop: when the remaining snapshot's
occurrence counts are dominated by the source's current simulated list,
every newly emitted move's shard is present in the source's list in the
recorded state (so the `list.remove` of line 66 always finds it). -/
theorem processShards_trace_present (t : ℤ) (under : List ℤ) (src : ℤ)
    (snap : List ℤ) (st : PState)
    (hsrc : src ∈ st.topo.map Prod.fst)
    (hcount : ∀ x, List.count x snap ≤ List.count x (lookupShards st.topo src))
    (p : Move × Topology)
    (hp : p ∈ (processShards t under src snap st).trace) :
    p ∈ st.trace ∨ p.1.2.2 ∈ lookupShards p.2 p.1.1 := by
  induction snap generalizing st with
  | nil => exact Or.inl hp
  | cons s rest ih =>
    cases hfd : findDest t st.topo src s under with
    | none =>
      rw [processShards_cons_none t under src s rest st hfd] at hp
      refine ih st hsrc (fun x => ?_) hp
      exact le_trans (List.count_le_count_cons x s rest) (hcount x)
    | some u =>
      have hne : src ≠ u := (findDest_ne_src t st.topo src s under u hfd).symm
      have hs_mem : s ∈ lookupShards st.topo src := by
        rw [← List.count_pos_iff]
        have h1 := hcount s
        rw [List.count_cons_self] at h1
        omega
      rw [processShards_cons_some t under src s rest st u hfd] at hp
      set m1 := setShards st.topo u (lookupShards st.topo u ++ [s]) with hm1
      have hl1 : lookupShards m1 src = lookupShards st.topo src :=
        lookupShards_setShards_ne st.topo u src _ hne
      have hsrc1 : src ∈ m1.map Prod.fst := by
        rw [hm1, keys_setShards]
        exact hsrc
      have hl2 : lookupShards (setShards m1 src ((lookupShards m1 src).erase s)) src
          = (lookupShards st.topo src).erase s := by
        rw [lookupShards_setShards_self m1 src _ hsrc1, hl1]
      have hcount2 : ∀ x, List.count x rest ≤
          List.count x (lookupShards (setShards m1 src ((lookupShards m1 src).erase s)) src) := by
        intro x
        rw [hl2]
        rcases eq_or_ne x s with hxs | hxs
        · subst hxs
          rw [List.count_erase_self]
          have h1 := hcount x
          rw [List.count_cons_self] at h1
          omega
        · rw [List.count_erase_of_ne hxs]
          have h1 := hcount x
          rw [List.count_cons_of_ne hxs] at h1
          exact h1
      rcases ih _ (by rw [keys_setShards]; exact hsrc1) hcount2 hp with hin | hpres
      · simp only [List.mem_append, List.mem_singleton] at hin
        rcases hin with h | h
        · exact Or.inl h
        · subst h
          exact Or.inr hs_mem
      · exact Or.inr hpres

/-- Outer-loop presence: when every overfilled peer is a key of the map,
every emitted move's shard is present in the source's simulated list in
the recorded state (the snapshot of line 56 is the source's own list, so
the count domination holds trivially at each peer). -/
theorem processPeers_trace_present (t : ℤ) (under over : List ℤ) (st : PState)
    (hover : ∀ q ∈ over, q ∈ st.topo.map Prod.fst)
    (p : Move × Topology) (hp : p ∈ (processPeers t under over st).trace) :
    p ∈ st.trace ∨ p.1.2.2 ∈ lookupShards p.2 p.1.1 := by
  induction over generalizing st with
  | nil => exact Or.inl hp
  | cons q qs ih =>
    rw [processPeers_cons] at hp
    have hq : q ∈ st.topo.map Prod.fst := hover q (List.mem_cons_self _ _)
    have hqs : ∀ x ∈ qs,
        x ∈ (processShards t under q (lookupShards st.topo q) st).topo.map Prod.fst := by
      intro x hx
      rw [keys_processShards]
      exact hover x (List.mem_cons_of_mem _ hx)
    rcases ih _ hqs hp with hin | hpres
    · exact processShards_trace_present t under q _ st hq (fun x => le_refl _) p hin
    · exact Or.inr hpres

theorem flattenShards_cons (e : ℤ × List ℤ) (rest : Topology) :
    flattenShards (e :: rest) = (e.2 : Multiset ℤ) + flattenShards rest := by
  simp [flattenShards]

theorem setShards_cons (e : ℤ × List ℤ) (rest : Topology) (k : ℤ) (v : List ℤ) :
    setShards (e :: rest) k v =
      (if e.1 = k then (e.1, v) else e) :: setShards rest k v := rfl

/-- Setting an absent key is a no-op. -/
theorem setShards_not_mem (m : Topology) (k : ℤ) (v : List ℤ)
    (hk : k ∉ m.map Prod.fst) : setShards m k v = m := by
  induction m with
  | nil => rfl
  | cons e rest ih =>
    simp only [List.map_cons, List.mem_cons] at hk
    push_neg at hk
    rw [setShards_cons, if_neg (Ne.symm hk.1), ih hk.2]

/-- Replacing a present key's list trades the old list for the new one in
the cluster-wide shard multiset. -/
theorem flatten_setShards (m : Topology) (k : ℤ) (v : List ℤ)
    (hnd : (m.map Prod.fst).Nodup) (hk : k ∈ m.map Prod.fst) :
    flattenShards (setShards m k v) + (lookupShards m k : Multiset ℤ)
      = flattenShards m + (v : Multiset ℤ) := by
  induction m with
  | nil => simp at hk
  | cons e rest ih =>
    simp only [List.map_cons, List.nodup_cons] at hnd
    by_cases he : e.1 = k
    · have hrest : k ∉ rest.map Prod.fst := by
        rw [← he]
        exact hnd.1
      rw [setShards_cons, if_pos he, setShards_not_mem rest k v hrest]
      rw [lookupShards_cons, if_pos he, flattenShards_cons, flattenShards_cons]
      abel
    · simp only [List.map_cons, List.mem_cons] at hk
      rcases hk with h | h
      · exact absurd h.symm he
      · rw [setShards_cons, if_neg he]
        rw [lookupShards_cons, if_neg he, flattenShards_cons, flattenShards_cons]
        rw [add_assoc, ih hnd.2 h]
        abel

/-- One move step (lines 65-66) conserves the cluster-wide multiset of
shard assignments: the shard is appended to the destination and one
occurrence is removed from the source. -/
theorem flatten_move_step (m : Topology) (u src s : ℤ)
    (hnd : (m.map Prod.fst).Nodup) (hu : u ∈ m.map Prod.fst)
    (hsrc : src ∈ m.map Prod.fst) (hne : src ≠ u)
    (hs : s ∈ lookupShards m src) :
    flattenShards (setShards (setShards m u (lookupShards m u ++ [s])) src
        ((lookupShards (setShards m u (lookupShards m u ++ [s])) src).erase s))
      = flattenShards m := by
  set m1 := setShards m u (lookupShards m u ++ [s]) with hm1
  have hnd1 : (m1.map Prod.fst).Nodup := by
    rw [hm1, keys_setShards]
    exact hnd
  have hsrc1 : src ∈ m1.map Prod.fst := by
    rw [hm1, keys_setShards]
    exact hsrc
  have hl1 : lookupShards m1 src = lookupShards m src :=
    lookupShards_setShards_ne m u src _ hne
  have h1 : flattenShards m1 + (lookupShards m u : Multiset ℤ)
      = flattenShards m + ((lookupShards m u ++ [s] : List ℤ) : Multiset ℤ) :=
    flatten_setShards m u _ hnd hu
  have hflat1 : flattenShards m1 = flattenShards m + {s} := by
    have hco : ((lookupShards m u ++ [s] : List ℤ) : Multiset ℤ)
        = (lookupShards m u : Multiset ℤ) + {s} := by
      rw [← Multiset.coe_add, Multiset.coe_singleton]
    rw [hco] at h1
    have h1b : flattenShards m1 + (lookupShards m u : Multiset ℤ)
        = (flattenShards m + {s}) + (lookupShards m u : Multiset ℤ) := by
      rw [h1]
      abel
    exact add_right_cancel h1b
  have h2 : flattenShards (setShards m1 src ((lookupShards m1 src).erase s))
        + (lookupShards m1 src : Multiset ℤ)
      = flattenShards m1 + (((lookupShards m1 src).erase s : List ℤ) : Multiset ℤ) :=
    flatten_setShards m1 src _ hnd1 hsrc1
  have hperm : (lookupShards m src : Multiset ℤ)
      = {s} + (((lookupShards m src).erase s : List ℤ) : Multiset ℤ) := by
    have hp := List.perm_cons_erase hs
    rw [Multiset.coe_eq_coe.mpr hp]
    rw [show ((s :: (lookupShards m src).erase s : List ℤ) : Multiset ℤ)
        = ([s] ++ (lookupShards m src).erase s : List ℤ) from rfl]
    rw [← Multiset.coe_add, Multiset.coe_singleton]
  rw [hl1] at h2
  rw [hflat1, hperm] at h2
  have h2b : flattenShards (setShards m1 src ((lookupShards m src).erase s))
        + ({s} + (((lookupShards m src).erase s : List ℤ) : Multiset ℤ))
      = flattenShards m + ({s} + (((lookupShards m src).erase s : List ℤ) : Multiset ℤ)) := by
    rw [h2]
    abel
  rw [hl1]
  exact add_right_cancel h2b

/-- The middle loop conserves the cluster-wide shard multiset. -/
theorem flatten_processShards (t : ℤ) (under : List ℤ) (src : ℤ)
    (snap : List ℤ) (st : PState)
    (hnd : (st.topo.map Prod.fst).Nodup)
    (hsrc : src ∈ st.topo.map Prod.fst)
    (hunder : ∀ u ∈ under, u ∈ st.topo.map Prod.fst)
    (hcount : ∀ x, List.count x snap ≤ List.count x (lookupShards st.topo src)) :
    flattenShards (processShards t under src snap st).topo = flattenShards st.topo := by
  induction snap generalizing st with
  | nil => rfl
  | cons s rest ih =>
    cases hfd : findDest t st.topo src s under with
    | none =>
      rw [processShards_cons_none t under src s rest st hfd]
      exact ih st hnd hsrc hunder
        (fun x => le_trans (List.count_le_count_cons x s rest) (hcount x))
    | some u =>
      rcases findDest_some t st.topo src s under u hfd with ⟨humem, -, -, -⟩
      have hne : src ≠ u := (findDest_ne_src t st.topo src s under u hfd).symm
      have hu : u ∈ st.topo.map Prod.fst := hunder u humem
      have hs_mem : s ∈ lookupShards st.topo src := by
        rw [← List.count_pos_iff]
        have h1 := hcount s
        rw [List.count_cons_self] at h1
        omega
      rw [processShards_cons_some t under src s rest st u hfd]
      set m1 := setShards st.topo u (lookupShards st.topo u ++ [s]) with hm1
      set m2 := setShards m1 src ((lookupShards m1 src).erase s) with hm2
      have hkeys2 : m2.map Prod.fst = st.topo.map Prod.fst := by
        rw [hm2, keys_setShards, hm1, keys_setShards]
      have hflat : flattenShards m2 = flattenShards st.topo :=
        flatten_move_step st.topo u src s hnd hu hsrc hne hs_mem
      have hl2 : lookupShards m2 src = (lookupShards st.topo src).erase s := by
        rw [hm2, lookupShards_setShards_self m1 src _
              (by rw [hm1, keys_setShards]; exact hsrc),
          hm1, lookupShards_setShards_ne st.topo u src _ hne]
      have hcount2 : ∀ x, List.count x rest ≤
          List.count x (lookupShards m2 src) := by
        intro x
        rw [hl2]
        rcases eq_or_ne x s with hxs | hxs
        · subst hxs
          rw [List.count_erase_self]
          have h1 := hcount x
          rw [List.count_cons_self] at h1
          omega
        · rw [List.count_erase_of_ne hxs]
          have h1 := hcount x
          rw [List.count_cons_of_ne hxs] at h1
          exact h1
      have hrec := ih ⟨m2, st.trace ++ [((src, u, s), st.topo)]⟩
        (by rw [hkeys2]; exact hnd) (by rw [hkeys2]; exact hsrc)
        (fun x hx => by rw [hkeys2]; exact hunder x hx) hcount2
      rw [hrec]
      exact hflat

/-- The outer loop conserves the cluster-wide shard multiset. -/
theorem flatten_processPeers (t : ℤ) (under over : List ℤ) (st : PState)
    (hnd : (st.topo.map Prod.fst).Nodup)
    (hover : ∀ q ∈ over, q ∈ st.topo.map Prod.fst)
    (hunder : ∀ u ∈ under, u ∈ st.topo.map Prod.fst) :
    flattenShards (processPeers t under over st).topo = flattenShards st.topo := by
  induction over generalizing st with
  | nil => rfl
  | cons q qs ih =>
    rw [processPeers_cons]
    set st1 := processShards t under q (lookupShards st.topo q) st with hst1
    have hkeys : st1.topo.map Prod.fst = st.topo.map Prod.fst := by
      rw [hst1]
      exact keys_processShards t under q _ st
    have hrec := ih st1 (by rw [hkeys]; exact hnd)
      (fun x hx => by rw [hkeys]; exact hover x (List.mem_cons_of_mem _ hx))
      (fun x hx => by rw [hkeys]; exact hunder x hx)
    rw [hrec, hst1]
    exact flatten_processShards t under q _ st hnd
      (hover q (List.mem_cons_self _ _)) hunder (fun x => le_refl _)

/-- The total shard count is the cardinality of the shard multiset. -/
theorem totalShards_eq_card (m : Topology) :
    totalShards m = Multiset.card (flattenShards m) := by
  induction m with
  | nil => rfl
  | cons e rest ih =>
    rw [flattenShards_cons, Multiset.card_add, Multiset.coe_card]
    simp only [totalShards, List.map_cons, List.sum_cons] at ih ⊢
    omega

/-- Looked-up lists of a map with duplicate-free values are
duplicate-free. -/
theorem lookupShards_nodup (m : Topology) (k : ℤ)
    (h : ∀ e ∈ m, e.2.Nodup) : (lookupShards m k).Nodup := by
  induction m with
  | nil => exact List.nodup_nil
  | cons e rest ih =>
    rw [lookupShards_cons]
    by_cases he : e.1 = k
    · rw [if_pos he]
      exact h e (List.mem_cons_self _ _)
    · rw [if_neg he]
      exact ih (fun x hx => h x (List.mem_cons_of_mem _ hx))

theorem setShards_valuesNodup (m : Topology) (k : ℤ) (v : List ℤ)
    (h : ∀ e ∈ m, e.2.Nodup) (hv : v.Nodup) :
    ∀ e ∈ setShards m k v, e.2.Nodup := by
  intro e he
  unfold setShards at he
  rcases List.mem_map.mp he with ⟨e0, he0, rfl⟩
  by_cases hc : e0.1 = k
  · rw [if_pos hc]
    exact hv
  · rw [if_neg hc]
    exact h e0 he0

/-- The simulated lists stay duplicate-free: a destination only receives
a shard it does not hold (guard of line 59) and a source only loses
one occurrence. -/
theorem valuesNodup_processShards (t : ℤ) (under : List ℤ) (src : ℤ)
    (snap : List ℤ) (st : PState) (h : ∀ e ∈ st.topo, e.2.Nodup) :
    ∀ e ∈ (processShards t under src snap st).topo, e.2.Nodup := by
  induction snap generalizing st with
  | nil => exact h
  | cons s rest ih =>
    cases hfd : findDest t st.topo src s under with
    | none =>
      rw [processShards_cons_none t under src s rest st hfd]
      exact ih st h
    | some u =>
      rcases findDest_some t st.topo src s under u hfd with ⟨-, -, hnotmem, -⟩
      rw [processShards_cons_some t under src s rest st u hfd]
      apply ih
      have h1 : ∀ e ∈ setShards st.topo u (lookupShards st.topo u ++ [s]),
          e.2.Nodup := by
        apply setShards_valuesNodup _ _ _ h
        apply List.Nodup.append (lookupShards_nodup _ _ h) (List.nodup_singleton s)
        intro x hx1 hx2
        rw [List.mem_singleton] at hx2
        subst hx2
        exact hnotmem hx1
      apply setShards_valuesNodup _ _ _ h1
      exact List.Nodup.erase s (lookupShards_nodup _ _ h1)

/-- The middle loop appends to the trace a block of moves whose sources
are all the processed peer and whose shards form a sublist of the
snapshot (at most one move per snapshot element). -/
theorem processShards_trace_structure (t : ℤ) (under : List ℤ) (src : ℤ)
    (snap : List ℤ) (st : PState) :
    ∃ tr, (processShards t under src snap st).trace = st.trace ++ tr ∧
      (tr.map (fun p => p.1.2.2)).Sublist snap ∧ ∀ p ∈ tr, p.1.1 = src := by
  induction snap generalizing st with
  | nil => exact ⟨[], by simp [processShards], by simp, by simp⟩
  | cons s rest ih =>
    cases hfd : findDest t st.topo src s under with
    | none =>
      rcases ih st with ⟨tr, h1, h2, h3⟩
      exact ⟨tr, by rw [processShards_cons_none t under src s rest st hfd, h1],
        h2.cons s, h3⟩
    | some u =>
      rcases ih ⟨setShards (setShards st.topo u (lookupShards st.topo u ++ [s])) src
          ((lookupShards (setShards st.topo u (lookupShards st.topo u ++ [s])) src).erase s),
          st.trace ++ [((src, u, s), st.topo)]⟩ with ⟨tr, h1, h2, h3⟩
      refine ⟨((src, u, s), st.topo) :: tr, ?_, ?_, ?_⟩
      · rw [processShards_cons_some t under src s rest st u hfd, h1,
          List.append_assoc, List.singleton_append]
      · exact List.Sublist.cons₂ s h2
      · intro p hp
        rcases List.mem_cons.mp hp with hp | hp
        · rw [hp]
        · exact h3 p hp

/-- The outer loop appends a trace block whose projection to
(source, shard) pairs has no duplicates: within one source the shards
come from a duplicate-free snapshot, and distinct overfilled peers give
distinct sources. -/
theorem processPeers_pairs_nodup (t : ℤ) (under over : List ℤ) (st : PState)
    (hvals : ∀ e ∈ st.topo, e.2.Nodup) (hond : over.Nodup) :
    ∃ tr, (processPeers t under over st).trace = st.trace ++ tr ∧
      (tr.map (fun p => (p.1.1, p.1.2.2))).Nodup ∧
      ∀ p ∈ tr, p.1.1 ∈ over := by
  induction over generalizing st with
  | nil => exact ⟨[], by simp [processPeers], by simp, by simp⟩
  | cons q qs ih =>
    rw [List.nodup_cons] at hond
    set st1 := processShards t under q (lookupShards st.topo q) st with hst1
    rcases processShards_trace_structure t under q (lookupShards st.topo q) st with
      ⟨tr1, h11, h12, h13⟩
    have hvals1 : ∀ e ∈ st1.topo, e.2.Nodup := by
      rw [hst1]
      exact valuesNodup_processShards t under q _ st hvals
    rcases ih st1 hvals1 hond.2 with ⟨tr2, h21, h22, h23⟩
    refine ⟨tr1 ++ tr2, ?_, ?_, ?_⟩
    · rw [processPeers_cons, ← hst1, h21, h11, List.append_assoc]
    · rw [List.map_append]
      have htr1 : (tr1.map (fun p => (p.1.1, p.1.2.2))).Nodup := by
        have hmap : tr1.map (fun p => (p.1.1, p.1.2.2))
            = (tr1.map (fun p => p.1.2.2)).map (fun x => (q, x)) := by
          rw [List.map_map]
          apply List.map_congr_left
          intro p hp
          simp only [Function.comp]
          rw [h13 p hp]
        rw [hmap]
        apply List.Nodup.map (fun x y hxy => (Prod.mk.injEq _ _ _ _ ▸ hxy).2)
        exact h12.nodup (lookupShards_nodup st.topo q hvals)
      apply List.Nodup.append htr1 h22
      intro x hx1 hx2
      rcases List.mem_map.mp hx1 with ⟨p1, hp1, rfl⟩
      rcases List.mem_map.mp hx2 with ⟨p2, hp2, heq⟩
      have hq1 : p1.1.1 = q := h13 p1 hp1
      have hq2 : p2.1.1 ∈ qs := h23 p2 hp2
      have hfst : p2.1.1 = p1.1.1 := (Prod.ext_iff.mp heq).1
      exact hond.1 ((hfst.trans hq1) ▸ hq2)
    · intro p hp
      rcases List.mem_append.mp hp with hp | hp
      · exact (h13 p hp) ▸ List.mem_cons_self _ _
      · exact List.mem_cons_of_mem _ (h23 p hp)

theorem mem_underfilled_peers (t : ℤ) (m : Topology) (u : ℤ) :
    u ∈ underfilled_peers t m ↔ ∃ l, (u, l) ∈ m ∧ (l.length : ℤ) < t := by
  unfold underfilled_peers
  constructor
  · intro h
    rcases List.mem_map.mp h with ⟨e, he, rfl⟩
    rcases List.mem_filter.mp he with ⟨hmem, hcond⟩
    exact ⟨e.2, hmem, by simpa using hcond⟩
  · rintro ⟨l, hmem, hlen⟩
    apply List.mem_map.mpr
    exact ⟨(u, l), List.mem_filter.mpr ⟨hmem, by simpa using hlen⟩, rfl⟩

theorem mem_overfilled_peers (t : ℤ) (m : Topology) (u : ℤ) :
    u ∈ overfilled_peers t m ↔ ∃ l, (u, l) ∈ m ∧ t < (l.length : ℤ) := by
  unfold overfilled_peers
  constructor
  · intro h
    rcases List.mem_map.mp h with ⟨e, he, rfl⟩
    rcases List.mem_filter.mp he with ⟨hmem, hcond⟩
    exact ⟨e.2, hmem, by simpa using hcond⟩
  · rintro ⟨l, hmem, hlen⟩
    apply List.mem_map.mpr
    exact ⟨(u, l), List.mem_filter.mpr ⟨hmem, by simpa using hlen⟩, rfl⟩

theorem underfilled_subset_keys (t : ℤ) (m : Topology) (u : ℤ)
    (h : u ∈ underfilled_peers t m) : u ∈ m.map Prod.fst := by
  rcases (mem_underfilled_peers t m u).mp h with ⟨l, hmem, -⟩
  exact List.mem_map.mpr ⟨(u, l), hmem, rfl⟩

theorem overfilled_subset_keys (t : ℤ) (m : Topology) (u : ℤ)
    (h : u ∈ overfilled_peers t m) : u ∈ m.map Prod.fst := by
  rcases (mem_overfilled_peers t m u).mp h with ⟨l, hmem, -⟩
  exact List.mem_map.mpr ⟨(u, l), hmem, rfl⟩

theorem overfilled_nodup (t : ℤ) (m : Topology) (hnd : keysNodup m) :
    (overfilled_peers t m).Nodup := by
  unfold overfilled_peers
  unfold keysNodup at hnd
  have hsub : (m.filter (fun e => decide (t < (e.2.length : ℤ)))).map Prod.fst
      |>.Sublist (m.map Prod.fst) := (List.filter_sublist m).map Prod.fst
  exact hsub.nodup hnd

/-- With unique keys, a key determines its entry's list. -/
theorem entry_unique (m : Topology) (hnd : keysNodup m) (k : ℤ)
    (l1 l2 : List ℤ) (h1 : (k, l1) ∈ m) (h2 : (k, l2) ∈ m) : l1 = l2 := by
  unfold keysNodup at hnd
  induction m with
  | nil => simp at h1
  | cons e rest ih =>
    rw [List.map_cons, List.nodup_cons] at hnd
    rcases List.mem_cons.mp h1 with hh1 | hh1 <;>
      rcases List.mem_cons.mp h2 with hh2 | hh2
    · rw [← hh1] at hh2
      exact (Prod.ext_iff.mp hh2.symm).2
    · exfalso
      apply hnd.1
      rw [← hh1]
      exact List.mem_map.mpr ⟨(k, l2), hh2, rfl⟩
    · exfalso
      apply hnd.1
      rw [← hh2]
      exact List.mem_map.mpr ⟨(k, l1), hh1, rfl⟩
    · exact ih hnd.2 hh1 hh2

theorem underfilled_nil_of (t : ℤ) (m : Topology)
    (h : ∀ e ∈ m, t ≤ (e.2.length : ℤ)) : underfilled_peers t m = [] := by
  unfold underfilled_peers
  rw [List.map_eq_nil_iff, List.filter_eq_nil_iff]
  intro e he
  simpa using not_lt.mpr (h e he)

theorem overfilled_nil_of (t : ℤ) (m : Topology)
    (h : ∀ e ∈ m, (e.2.length : ℤ) ≤ t) : overfilled_peers t m = [] := by
  unfold overfilled_peers
  rw [List.map_eq_nil_iff, List.filter_eq_nil_iff]
  intro e he
  simpa using not_lt.mpr (h e he)

theorem plan_core_under_nil (t : ℤ) (m : Topology)
    (h : underfilled_peers t m = []) : (plan_core t m).trace = [] := by
  rw [plan_core, h, processPeers_under_nil]

theorem plan_core_over_nil (t : ℤ) (m : Topology)
    (h : overfilled_peers t m = []) : (plan_core t m).trace = [] := by
  rw [plan_core, h]
  rfl

theorem rebalance_plan_eq (m : Topology) (hne : m ≠ []) :
    rebalance_plan m
      = ((plan_core (average_shards_per_peer m) m).trace).map Prod.fst := by
  rw [rebalance_plan, if_neg]
  rw [List.isEmpty_iff]
  exact hne

theorem rebalance_sim_eq (m : Topology) (hne : m ≠ []) :
    rebalance_sim m = (plan_core (average_shards_per_peer m) m).topo := by
  rw [rebalance_sim, if_neg]
  rw [List.isEmpty_iff]
  exact hne

theorem execute_moves_cons (respond : ℕ → Move → ℕ × String) (i : ℕ) (mv : Move)
    (rest : List Move) :
    execute_moves respond i (mv :: rest) =
      ExecEvent.request mv ::
        ((if (respond i mv).1 = 200 then [ExecEvent.success mv]
          else [ExecEvent.failure mv (respond i mv).1 (respond i mv).2]) ++
          execute_moves respond (i + 1) rest) := rfl

/-- The executor issues exactly one request per planned move, in plan
order, regardless of response statuses: failures never retry and never
stop the remaining operations. -/
theorem requestsOf_execute_moves (respond : ℕ → Move → ℕ × String) (i : ℕ)
    (plan : List Move) : requestsOf (execute_moves respond i plan) = plan := by
  induction plan generalizing i with
  | nil => rfl
  | cons mv rest ih =>
    rw [execute_moves_cons]
    unfold requestsOf at ih ⊢
    by_cases hc : (respond i mv).1 = 200
    · simp only [hc, if_pos, List.filterMap_cons, List.filterMap_append]
      simp [ih]
    · simp only [hc, if_neg, List.filterMap_cons, List.filterMap_append]
      simp [hc, ih]

/-- Any move answered with a non-200 status produces a failure report
carrying that status and body. -/
theorem failure_mem_execute_moves (respond : ℕ → Move → ℕ × String)
    (plan : List Move) (i k : ℕ) (hk : k < plan.length)
    (hstatus : (respond (i + k) (plan.get ⟨k, hk⟩)).1 ≠ 200) :
    ExecEvent.failure (plan.get ⟨k, hk⟩) (respond (i + k) (plan.get ⟨k, hk⟩)).1
      (respond (i + k) (plan.get ⟨k, hk⟩)).2 ∈ execute_moves respond i plan := by
  induction plan generalizing i k with
  | nil => simp at hk
  | cons mv rest ih =>
    rw [execute_moves_cons]
    cases k with
    | zero =>
      have hget : (mv :: rest).get ⟨0, hk⟩ = mv := rfl
      rw [hget, Nat.add_zero] at hstatus ⊢
      refine List.mem_cons_of_mem _ (List.mem_append_left _ ?_)
      rw [if_neg hstatus]
      exact List.mem_singleton.mpr rfl
    | succ j =>
      have hk2 : j < rest.length := Nat.lt_of_succ_lt_succ hk
      have hget : (mv :: rest).get ⟨j + 1, hk⟩ = rest.get ⟨j, hk2⟩ := rfl
      have hidx : i + (j + 1) = (i + 1) + j := by omega
      rw [hget, hidx] at hstatus ⊢
      exact List.mem_cons_of_mem _ (List.mem_append_right _ (ih (i + 1) j hk2 hstatus))

/-! ## Claims -/

/-- C1 counterexample: for the topology {1:[A,B], 2:[A]} with A=0, B=1
the planner emits no move at all — peer 2 holds 1 shard, which is not
strictly below the target 1, so peer 2 is not underfilled — contradicting
the claimed move of shard B from peer 1 to peer 2 and the claimed final
topology {1:[A], 2:[A,B]}. -/
theorem claim1_counterexample :
    rebalance_plan [((1:ℤ), [(0:ℤ), 1]), ((2:ℤ), [(0:ℤ)])] = [] ∧
    rebalance_plan [((1:ℤ), [(0:ℤ), 1]), ((2:ℤ), [(0:ℤ)])]
      ≠ [((1:ℤ), (2:ℤ), (1:ℤ))] ∧
    rebalance_sim [((1:ℤ), [(0:ℤ), 1]), ((2:ℤ), [(0:ℤ)])]
      = [((1:ℤ), [(0:ℤ), 1]), ((2:ℤ), [(0:ℤ)])] := by
  have ht : average_shards_per_peer [((1:ℤ), [(0:ℤ), 1]), ((2:ℤ), [(0:ℤ)])] = 1 := by
    rw [average_eval _ (by decide) (by decide)]
    decide
  have hp : rebalance_plan [((1:ℤ), [(0:ℤ), 1]), ((2:ℤ), [(0:ℤ)])] = [] := by
    rw [rebalance_plan_eq _ (by decide), ht]
    decide
  refine ⟨hp, by rw [hp]; decide, ?_⟩
  rw [rebalance_sim_eq _ (by decide), ht]
  decide

/-- C1 (amended): for the input topology {1:[A,B], 2:[A]} with two
distinct shard ids A and B the planner computes target = 1, but since
peer 2's count equals the target it is not underfilled, so no move is
emitted (in particular shard B does not move) and applying the plan
leaves the topology unchanged. -/
theorem claim1_no_move (A B : ℤ) (hAB : A ≠ B) :
    average_shards_per_peer [((1:ℤ), [A, B]), ((2:ℤ), [A])] = 1 ∧
    underfilled_peers 1 [((1:ℤ), [A, B]), ((2:ℤ), [A])] = [] ∧
    rebalance_plan [((1:ℤ), [A, B]), ((2:ℤ), [A])] = [] ∧
    rebalance_sim [((1:ℤ), [A, B]), ((2:ℤ), [A])]
      = [((1:ℤ), [A, B]), ((2:ℤ), [A])] := by
  have ht : average_shards_per_peer [((1:ℤ), [A, B]), ((2:ℤ), [A])] = 1 := by
    rw [average_eval _ (by simp) (by norm_num [totalShards])]
    norm_num [totalShards]
  refine ⟨ht, rfl, ?_, ?_⟩
  · rw [rebalance_plan_eq _ (by simp), ht]
    rfl
  · rw [rebalance_sim_eq _ (by simp), ht]
    rfl

theorem claim1_witness :
    (0:ℤ) ≠ 1 ∧
    (average_shards_per_peer [((1:ℤ), [(0:ℤ), (1:ℤ)]), ((2:ℤ), [(0:ℤ)])] = 1 ∧
     underfilled_peers 1 [((1:ℤ), [(0:ℤ), (1:ℤ)]), ((2:ℤ), [(0:ℤ)])] = [] ∧
     rebalance_plan [((1:ℤ), [(0:ℤ), (1:ℤ)]), ((2:ℤ), [(0:ℤ)])] = [] ∧
     rebalance_sim [((1:ℤ), [(0:ℤ), (1:ℤ)]), ((2:ℤ), [(0:ℤ)])]
       = [((1:ℤ), [(0:ℤ), (1:ℤ)]), ((2:ℤ), [(0:ℤ)])]) :=
  ⟨by decide, claim1_no_move 0 1 (by decide)⟩

/-- C2 counterexample: for the topology {1:[0,0,5,7], 2:[], 3:[]} (peer 1
holds the same shard id twice) the planner moves the (source, shard)
pair (1, 0) twice — once to peer 2 and once to peer 3 — so the claimed
at-most-once property fails for this input topology. -/
theorem claim2_counterexample :
    rebalance_plan [((1:ℤ), [(0:ℤ), 0, 5, 7]), ((2:ℤ), []), ((3:ℤ), [])]
      = [((1:ℤ), (2:ℤ), (0:ℤ)), ((1:ℤ), (3:ℤ), (0:ℤ))] ∧
    ¬ ((rebalance_plan [((1:ℤ), [(0:ℤ), 0, 5, 7]), ((2:ℤ), []), ((3:ℤ), [])]).map
        (fun mv => (mv.1, mv.2.2))).Nodup := by
  have ht : average_shards_per_peer
      [((1:ℤ), [(0:ℤ), 0, 5, 7]), ((2:ℤ), []), ((3:ℤ), [])] = 1 := by
    rw [average_eval _ (by decide) (by decide)]
    decide
  have hp : rebalance_plan [((1:ℤ), [(0:ℤ), 0, 5, 7]), ((2:ℤ), []), ((3:ℤ), [])]
      = [((1:ℤ), (2:ℤ), (0:ℤ)), ((1:ℤ), (3:ℤ), (0:ℤ))] := by
    rw [rebalance_plan_eq _ (by decide), ht]
    decide
  exact ⟨hp, by rw [hp]; decide⟩

/-- C2 (amended): with unique peer keys and no duplicate shard id inside
any peer's input list (the data model's hard constraint), every emitted
move satisfies, at the simulated state in which it is emitted, that the
source's count strictly exceeds the target and the destination does not
already hold the shard; and the (source, shard) projection of the whole
plan contains no duplicate pair. -/
theorem claim2_guard_invariants (m : Topology) (hnd : keysNodup m)
    (hvals : ∀ e ∈ m, e.2.Nodup) :
    (∀ p ∈ (plan_core (average_shards_per_peer m) m).trace,
        average_shards_per_peer m < ((lookupShards p.2 p.1.1).length : ℤ) ∧
        p.1.2.2 ∉ lookupShards p.2 p.1.2.1) ∧
    ((rebalance_plan m).map (fun mv => (mv.1, mv.2.2))).Nodup := by
  constructor
  · intro p hp
    unfold plan_core at hp
    rcases processPeers_trace_mem (average_shards_per_peer m) _ _ ⟨m, []⟩ p hp with
      h | ⟨-, -, -, h4, h5⟩
    · simp at h
    · exact ⟨h5, h4⟩
  · rcases eq_or_ne m [] with rfl | hne
    · simp [rebalance_plan]
    rw [rebalance_plan_eq m hne]
    unfold plan_core
    rcases processPeers_pairs_nodup (average_shards_per_peer m)
      (underfilled_peers _ m) (overfilled_peers _ m) ⟨m, []⟩ hvals
      (overfilled_nodup _ m hnd) with ⟨tr, h1, h2, -⟩
    rw [h1]
    simp only [List.nil_append, List.map_map]
    exact h2

theorem claim2_witness :
    (keysNodup [((1:ℤ), [(10:ℤ), 20, 30]), ((2:ℤ), []), ((3:ℤ), [])] ∧
      (∀ e ∈ ([((1:ℤ), [(10:ℤ), 20, 30]), ((2:ℤ), []), ((3:ℤ), [])] : Topology),
        e.2.Nodup)) ∧
    ((∀ p ∈ (plan_core (average_shards_per_peer
          [((1:ℤ), [(10:ℤ), 20, 30]), ((2:ℤ), []), ((3:ℤ), [])])
          [((1:ℤ), [(10:ℤ), 20, 30]), ((2:ℤ), []), ((3:ℤ), [])]).trace,
        average_shards_per_peer [((1:ℤ), [(10:ℤ), 20, 30]), ((2:ℤ), []), ((3:ℤ), [])]
          < ((lookupShards p.2 p.1.1).length : ℤ) ∧
        p.1.2.2 ∉ lookupShards p.2 p.1.2.1) ∧
      ((rebalance_plan [((1:ℤ), [(10:ℤ), 20, 30]), ((2:ℤ), []), ((3:ℤ), [])]).map
          (fun mv => (mv.1, mv.2.2))).Nodup) :=
  ⟨⟨by decide, by decide⟩,
    claim2_guard_invariants _ (by decide) (by decide)⟩

/-- C3 counterexample: for a single peer holding `2^54 + 1` shards the
float detour of lines 44-45 yields `int(float(2^54 + 1) / 1) = 2^54`,
not the exact floor quotient `2^54 + 1`: binary64 rounding loses the
low-order bit. -/
theorem claim3_counterexample :
    average_shards_per_peer [((1:ℤ), List.replicate (2 ^ 54 + 1) (0:ℤ))]
      ≠ ((totalShards [((1:ℤ), List.replicate (2 ^ 54 + 1) (0:ℤ))]
          / ([((1:ℤ), List.replicate (2 ^ 54 + 1) (0:ℤ))] : Topology).length : ℕ) : ℤ) := by
  have hsing : ∀ (k : ℤ) (l : List ℤ), totalShards [(k, l)] = l.length := by
    intro k l
    simp [totalShards]
  have htot : totalShards [((1:ℤ), List.replicate (2 ^ 54 + 1) (0:ℤ))]
      = 2 ^ 54 + 1 := by
    rw [hsing]
    exact List.length_replicate _ _
  have hlen : ([((1:ℤ), List.replicate (2 ^ 54 + 1) (0:ℤ))] : Topology).length = 1 := rfl
  have hq : ((totalShards [((1:ℤ), List.replicate (2 ^ 54 + 1) (0:ℤ))] : ℚ)
      / (([((1:ℤ), List.replicate (2 ^ 54 + 1) (0:ℤ))] : Topology).length : ℚ))
      = ((2 ^ 54 + 1 : ℕ) : ℚ) := by
    rw [htot, hlen]
    norm_num
  have hlog : Int.log 2 (((2 ^ 54 + 1 : ℕ) : ℚ)) = 54 := by
    rw [Int.log_natCast]
    have := Nat.log_eq_of_pow_le_of_lt_pow
      (b := 2) (m := 54) (n := 2 ^ 54 + 1) (by norm_num) (by norm_num)
    exact_mod_cast this
  have hfl : fl64 (((2 ^ 54 + 1 : ℕ) : ℚ)) = (2:ℚ) ^ 54 := by
    unfold fl64
    rw [if_pos (by positivity), hlog]
    have h1 : (52 : ℤ) - 54 = -2 := by norm_num
    have h2 : (54 : ℤ) - 52 = 2 := by norm_num
    rw [h1, h2]
    have hx : ((2 ^ 54 + 1 : ℕ) : ℚ) * (2:ℚ) ^ (-2 : ℤ) = (2:ℚ) ^ 52 + 1/4 := by
      rw [zpow_neg]
      push_cast
      norm_num
    rw [hx]
    have hflo : ⌊(2:ℚ) ^ 52 + 1/4⌋ = 2 ^ 52 := by
      rw [Int.floor_eq_iff]
      constructor
      · push_cast
        norm_num
      · push_cast
        norm_num
    have hre : roundEven ((2:ℚ) ^ 52 + 1/4) = 2 ^ 52 := by
      unfold roundEven
      have hfr : Int.fract ((2:ℚ) ^ 52 + 1/4) = 1/4 := by
        unfold Int.fract
        rw [hflo]
        push_cast
        ring
      rw [hfr, if_pos (by norm_num), hflo]
    rw [hre]
    push_cast
    norm_num
  have hlhs : average_shards_per_peer [((1:ℤ), List.replicate (2 ^ 54 + 1) (0:ℤ))]
      = 2 ^ 54 := by
    unfold average_shards_per_peer average_shards
    rw [hq, hfl]
    unfold pyInt
    rw [if_pos (by positivity)]
    rw [show ((2:ℚ) ^ 54) = (((2 ^ 54 : ℤ)) : ℚ) by push_cast; ring]
    rw [Int.floor_intCast]
  rw [hlhs, htot, hlen]
  norm_num

/-- C3 (amended): for every nonempty input topology whose total shard
count is at most `2^53`, the planner's target equals
`floor(totalShards / peerCount)` by exact integer division; above that
bound the binary64 rounding of line 44 can diverge from exact floor
division. -/
theorem claim3_target_floor (m : Topology) (hne : m ≠ [])
    (hle : totalShards m ≤ 2 ^ 53) :
    average_shards_per_peer m = ((totalShards m / m.length : ℕ) : ℤ) := by
  apply average_eval m _ hle
  cases m with
  | nil => exact absurd rfl hne
  | cons e rest => simp

theorem claim3_witness :
    (([((1:ℤ), [(5:ℤ)]), ((2:ℤ), [(6:ℤ), 7])] : Topology) ≠ [] ∧
      totalShards [((1:ℤ), [(5:ℤ)]), ((2:ℤ), [(6:ℤ), 7])] ≤ 2 ^ 53) ∧
    average_shards_per_peer [((1:ℤ), [(5:ℤ)]), ((2:ℤ), [(6:ℤ), 7])]
      = ((totalShards [((1:ℤ), [(5:ℤ)]), ((2:ℤ), [(6:ℤ), 7])]
          / ([((1:ℤ), [(5:ℤ)]), ((2:ℤ), [(6:ℤ), 7])] : Topology).length : ℕ) : ℤ) :=
  ⟨⟨by decide, by decide⟩, claim3_target_floor _ (by decide) (by decide)⟩

/-- C4: whenever every peer's count is the floor target or one above it,
consistently with the division remainder, the plan is empty: whatever
value the planner's own float-derived target takes, either no peer is
strictly below it or no peer is strictly above it, and both
classifications are needed for any move. -/
theorem claim4_balanced_empty_plan (m : Topology)
    (hcounts : ∀ e ∈ m, e.2.length = totalShards m / m.length ∨
      e.2.length = totalShards m / m.length + 1)
    (hrem : (m.filter (fun e =>
        decide (e.2.length = totalShards m / m.length + 1))).length
      = totalShards m % m.length) :
    rebalance_plan m = [] := by
  rcases eq_or_ne m [] with rfl | hne
  · rfl
  rw [rebalance_plan_eq m hne]
  rcases le_or_lt (average_shards_per_peer m)
      ((totalShards m / m.length : ℕ) : ℤ) with hle | hlt
  · have hunil : underfilled_peers (average_shards_per_peer m) m = [] := by
      apply underfilled_nil_of
      intro e he
      rcases hcounts e he with h | h <;> rw [h] <;> push_cast <;> omega
    rw [plan_core_under_nil _ _ hunil, List.map_nil]
  · have honil : overfilled_peers (average_shards_per_peer m) m = [] := by
      apply overfilled_nil_of
      intro e he
      rcases hcounts e he with h | h <;> rw [h] <;> push_cast <;> omega
    rw [plan_core_over_nil _ _ honil, List.map_nil]

theorem claim4_witness :
    ((∀ e ∈ ([((1:ℤ), [(10:ℤ)]), ((2:ℤ), [(20:ℤ)]), ((3:ℤ), [(30:ℤ)])] : Topology),
        e.2.length = totalShards [((1:ℤ), [(10:ℤ)]), ((2:ℤ), [(20:ℤ)]), ((3:ℤ), [(30:ℤ)])]
            / ([((1:ℤ), [(10:ℤ)]), ((2:ℤ), [(20:ℤ)]), ((3:ℤ), [(30:ℤ)])] : Topology).length ∨
          e.2.length = totalShards [((1:ℤ), [(10:ℤ)]), ((2:ℤ), [(20:ℤ)]), ((3:ℤ), [(30:ℤ)])]
            / ([((1:ℤ), [(10:ℤ)]), ((2:ℤ), [(20:ℤ)]), ((3:ℤ), [(30:ℤ)])] : Topology).length + 1)) ∧
    rebalance_plan [((1:ℤ), [(10:ℤ)]), ((2:ℤ), [(20:ℤ)]), ((3:ℤ), [(30:ℤ)])] = [] :=
  ⟨by decide, claim4_balanced_empty_plan _ (by decide) (by decide)⟩

/-- C5: the empty topology and any topology in which every peer holds
zero shards both produce an empty plan, by normal control flow (lines
40-42 for the empty map; empty classifications otherwise), not an
error. -/
theorem claim5_empty_or_zero (m : Topology) (hzero : ∀ e ∈ m, e.2 = ([] : List ℤ)) :
    rebalance_plan ([] : Topology) = [] ∧ rebalance_plan m = [] := by
  refine ⟨rfl, ?_⟩
  rcases eq_or_ne m [] with rfl | hne
  · rfl
  have htot : totalShards m = 0 := by
    unfold totalShards
    rw [List.sum_eq_zero]
    intro x hx
    rcases List.mem_map.mp hx with ⟨e, he, rfl⟩
    rw [hzero e he]
    rfl
  have ht : average_shards_per_peer m = 0 := by
    unfold average_shards_per_peer average_shards
    rw [htot]
    norm_num [fl64_zero, pyInt]
  rw [rebalance_plan_eq m hne, ht]
  have hunil : underfilled_peers 0 m = [] := by
    apply underfilled_nil_of
    intro e he
    exact Int.natCast_nonneg _
  rw [plan_core_under_nil _ _ hunil, List.map_nil]

theorem claim5_witness :
    (∀ e ∈ ([((1:ℤ), ([] : List ℤ)), ((2:ℤ), ([] : List ℤ))] : Topology),
      e.2 = ([] : List ℤ)) ∧
    (rebalance_plan ([] : Topology) = [] ∧
     rebalance_plan [((1:ℤ), ([] : List ℤ)), ((2:ℤ), ([] : List ℤ))] = []) :=
  ⟨by decide, claim5_empty_or_zero _ (by decide)⟩

/-- C6: with unique peer keys, a peer whose initial count equals the
planner's target is in neither the underfilled nor the overfilled
classification, and no emitted move names it as source or destination. -/
theorem claim6_at_target_untouched (m : Topology) (p : ℤ) (l : List ℤ)
    (hnd : keysNodup m) (hmem : (p, l) ∈ m)
    (hlen : (l.length : ℤ) = average_shards_per_peer m) :
    p ∉ underfilled_peers (average_shards_per_peer m) m ∧
    p ∉ overfilled_peers (average_shards_per_peer m) m ∧
    ∀ mv ∈ rebalance_plan m, mv.1 ≠ p ∧ mv.2.1 ≠ p := by
  have hunder : p ∉ underfilled_peers (average_shards_per_peer m) m := by
    intro hc
    rcases (mem_underfilled_peers _ m p).mp hc with ⟨l2, hm2, hl2⟩
    rw [entry_unique m hnd p l2 l hm2 hmem] at hl2
    omega
  have hover : p ∉ overfilled_peers (average_shards_per_peer m) m := by
    intro hc
    rcases (mem_overfilled_peers _ m p).mp hc with ⟨l2, hm2, hl2⟩
    rw [entry_unique m hnd p l2 l hm2 hmem] at hl2
    omega
  refine ⟨hunder, hover, ?_⟩
  intro mv hmv
  rcases eq_or_ne m [] with rfl | hne
  · simp [rebalance_plan] at hmv
  rw [rebalance_plan_eq m hne] at hmv
  rcases List.mem_map.mp hmv with ⟨pp, hpp, rfl⟩
  unfold plan_core at hpp
  rcases processPeers_trace_mem (average_shards_per_peer m) _ _ ⟨m, []⟩ pp hpp with
    h | ⟨h1, h2, -, -, -⟩
  · simp at h
  constructor
  · intro he
    exact hover (he ▸ h1)
  · intro he
    exact hunder (he ▸ h2)

theorem claim6_witness :
    (keysNodup [((1:ℤ), [(10:ℤ), 20, 30]), ((2:ℤ), []), ((3:ℤ), [(40:ℤ)])] ∧
      ((3:ℤ), [(40:ℤ)]) ∈ ([((1:ℤ), [(10:ℤ), 20, 30]), ((2:ℤ), []), ((3:ℤ), [(40:ℤ)])] : Topology) ∧
      (([(40:ℤ)].length : ℤ) = average_shards_per_peer
        [((1:ℤ), [(10:ℤ), 20, 30]), ((2:ℤ), []), ((3:ℤ), [(40:ℤ)])])) ∧
    ((3:ℤ) ∉ underfilled_peers
        (average_shards_per_peer [((1:ℤ), [(10:ℤ), 20, 30]), ((2:ℤ), []), ((3:ℤ), [(40:ℤ)])])
        [((1:ℤ), [(10:ℤ), 20, 30]), ((2:ℤ), []), ((3:ℤ), [(40:ℤ)])] ∧
      (3:ℤ) ∉ overfilled_peers
        (average_shards_per_peer [((1:ℤ), [(10:ℤ), 20, 30]), ((2:ℤ), []), ((3:ℤ), [(40:ℤ)])])
        [((1:ℤ), [(10:ℤ), 20, 30]), ((2:ℤ), []), ((3:ℤ), [(40:ℤ)])] ∧
      ∀ mv ∈ rebalance_plan [((1:ℤ), [(10:ℤ), 20, 30]), ((2:ℤ), []), ((3:ℤ), [(40:ℤ)])],
        mv.1 ≠ (3:ℤ) ∧ mv.2.1 ≠ (3:ℤ)) :=
  ⟨⟨by decide, by decide,
      by rw [average_eval _ (by decide) (by decide)]; decide⟩,
    claim6_at_target_untouched _ 3 [(40:ℤ)] (by decide) (by decide)
      (by rw [average_eval _ (by decide) (by decide)]; decide)⟩

/-- C7: with dry-run enabled the executor contacts the cluster with no
request at all, and the plan it reports is exactly the planner's. -/
theorem claim7_dry_run (m : Topology) (respond : ℕ → Move → ℕ × String)
    (hne : rebalance_plan m ≠ []) :
    (run_rebalance m true respond).2 = [] ∧
    (run_rebalance m true respond).1 = rebalance_plan m := by
  unfold run_rebalance
  refine ⟨?_, rfl⟩
  simp [hne]

theorem claim7_witness :
    (rebalance_plan [((1:ℤ), [(10:ℤ), 20, 30]), ((2:ℤ), []), ((3:ℤ), [])] ≠ []) ∧
    ((run_rebalance [((1:ℤ), [(10:ℤ), 20, 30]), ((2:ℤ), []), ((3:ℤ), [])] true
        (fun _ _ => (200, "ok"))).2 = [] ∧
      (run_rebalance [((1:ℤ), [(10:ℤ), 20, 30]), ((2:ℤ), []), ((3:ℤ), [])] true
        (fun _ _ => (200, "ok"))).1
        = rebalance_plan [((1:ℤ), [(10:ℤ), 20, 30]), ((2:ℤ), []), ((3:ℤ), [])]) := by
  have ht : average_shards_per_peer
      [((1:ℤ), [(10:ℤ), 20, 30]), ((2:ℤ), []), ((3:ℤ), [])] = 1 := by
    rw [average_eval _ (by decide) (by decide)]
    decide
  have hne : rebalance_plan [((1:ℤ), [(10:ℤ), 20, 30]), ((2:ℤ), []), ((3:ℤ), [])] ≠ [] := by
    rw [rebalance_plan_eq _ (by decide), ht]
    decide
  exact ⟨hne, claim7_dry_run _ _ hne⟩

/-- C8: executing a plan without dry-run issues exactly one request per
move, strictly in plan order (so no retry, and every later operation is
still attempted after a failure), and any move answered with a non-200
status yields a failure report carrying that status and body. -/
theorem claim8_executor_failures (plan : List Move)
    (respond : ℕ → Move → ℕ × String) :
    requestsOf (execute_moves respond 0 plan) = plan ∧
    ∀ (k : ℕ) (hk : k < plan.length),
      (respond k (plan.get ⟨k, hk⟩)).1 ≠ 200 →
      ExecEvent.failure (plan.get ⟨k, hk⟩) (respond k (plan.get ⟨k, hk⟩)).1
        (respond k (plan.get ⟨k, hk⟩)).2 ∈ execute_moves respond 0 plan := by
  refine ⟨requestsOf_execute_moves respond 0 plan, ?_⟩
  intro k hk hs
  have h0 : (respond (0 + k) (plan.get ⟨k, hk⟩)).1 ≠ 200 := by
    rw [Nat.zero_add]
    exact hs
  have hmem := failure_mem_execute_moves respond plan 0 k hk h0
  rw [Nat.zero_add] at hmem
  exact hmem

theorem claim8_witness :
    requestsOf (execute_moves (fun _ _ => (500, "err")) 0
        [((1:ℤ), (2:ℤ), (5:ℤ))]) = [((1:ℤ), (2:ℤ), (5:ℤ))] ∧
    ExecEvent.failure ((1:ℤ), (2:ℤ), (5:ℤ)) 500 "err"
      ∈ execute_moves (fun _ _ => (500, "err")) 0 [((1:ℤ), (2:ℤ), (5:ℤ))] := by
  refine ⟨(claim8_executor_failures _ _).1, ?_⟩
  have h := (claim8_executor_failures [((1:ℤ), (2:ℤ), (5:ℤ))]
      (fun _ _ => (500, "err"))).2 0 (by decide) (by decide)
  exact h

/-- C9: with unique peer keys the planner's simulation conserves the
cluster-wide multiset of shard assignments, hence also the total count:
each move appends the shard to the destination and removes the one
occurrence it took from the source. -/
theorem claim9_conservation (m : Topology) (hnd : keysNodup m) :
    flattenShards (rebalance_sim m) = flattenShards m ∧
    totalShards (rebalance_sim m) = totalShards m := by
  rcases eq_or_ne m [] with rfl | hne
  · exact ⟨rfl, rfl⟩
  have hmain : flattenShards (rebalance_sim m) = flattenShards m := by
    rw [rebalance_sim_eq m hne]
    unfold plan_core
    exact flatten_processPeers _ _ _ ⟨m, []⟩ hnd
      (fun q hq => overfilled_subset_keys _ _ _ hq)
      (fun u hu => underfilled_subset_keys _ _ _ hu)
  exact ⟨hmain, by rw [totalShards_eq_card, totalShards_eq_card, hmain]⟩

theorem claim9_witness :
    keysNodup [((1:ℤ), [(10:ℤ), 20, 30]), ((2:ℤ), []), ((3:ℤ), [])] ∧
    (flattenShards (rebalance_sim [((1:ℤ), [(10:ℤ), 20, 30]), ((2:ℤ), []), ((3:ℤ), [])])
        = flattenShards [((1:ℤ), [(10:ℤ), 20, 30]), ((2:ℤ), []), ((3:ℤ), [])] ∧
      totalShards (rebalance_sim [((1:ℤ), [(10:ℤ), 20, 30]), ((2:ℤ), []), ((3:ℤ), [])])
        = totalShards [((1:ℤ), [(10:ℤ), 20, 30]), ((2:ℤ), []), ((3:ℤ), [])]) :=
  ⟨by decide, claim9_conservation _ (by decide)⟩

/-- C10: under the data model's constraint that no peer's input shard
list holds the same shard id twice, every emitted move's shard id is
present in the source's simulated list at the state in which the move is
emitted, and the modelled `list.remove` of line 66 — applied after the
destination append of line 65 — succeeds rather than hitting its
missing-element error branch. -/
theorem claim10_removal_safe (m : Topology)
    (hvals : ∀ e ∈ m, e.2.Nodup) :
    ∀ p ∈ (plan_core (average_shards_per_peer m) m).trace,
      p.1.2.2 ∈ lookupShards p.2 p.1.1 ∧
      pyRemove (lookupShards (setShards p.2 p.1.2.1
          (lookupShards p.2 p.1.2.1 ++ [p.1.2.2])) p.1.1) p.1.2.2 ≠ none := by
  intro p hp
  unfold plan_core at hp
  have hpres := processPeers_trace_present (average_shards_per_peer m)
    (underfilled_peers _ m) (overfilled_peers _ m) ⟨m, []⟩
    (fun q hq => overfilled_subset_keys _ _ _ hq) p hp
  rcases hpres with h | hmemb
  · simp at h
  rcases processPeers_trace_mem (average_shards_per_peer m) _ _ ⟨m, []⟩ p hp with
    h | ⟨-, -, h3, -, h5⟩
  · simp at h
  have hne2 : p.1.1 ≠ p.1.2.1 := by
    intro he
    rw [he] at h5
    omega
  refine ⟨hmemb, ?_⟩
  rw [lookupShards_setShards_ne p.2 p.1.2.1 p.1.1 _ hne2]
  unfold pyRemove
  rw [if_pos hmemb]
  simp

theorem claim10_witness :
    (∀ e ∈ ([((1:ℤ), [(10:ℤ), 20, 30]), ((2:ℤ), []), ((3:ℤ), [])] : Topology),
      e.2.Nodup) ∧
    ((10:ℤ) ∈ lookupShards [((1:ℤ), [(10:ℤ), 20, 30]), ((2:ℤ), []), ((3:ℤ), [])] 1 ∧
      pyRemove (lookupShards (setShards
          [((1:ℤ), [(10:ℤ), 20, 30]), ((2:ℤ), []), ((3:ℤ), [])] 2
          (lookupShards [((1:ℤ), [(10:ℤ), 20, 30]), ((2:ℤ), []), ((3:ℤ), [])] 2
            ++ [(10:ℤ)])) 1) (10:ℤ) ≠ none) := by
  have ht : average_shards_per_peer
      [((1:ℤ), [(10:ℤ), 20, 30]), ((2:ℤ), []), ((3:ℤ), [])] = 1 := by
    rw [average_eval _ (by decide) (by decide)]
    decide
  have hmem : (((1:ℤ), (2:ℤ), (10:ℤ)),
      ([((1:ℤ), [(10:ℤ), 20, 30]), ((2:ℤ), []), ((3:ℤ), [])] : Topology))
      ∈ (plan_core (average_shards_per_peer
          [((1:ℤ), [(10:ℤ), 20, 30]), ((2:ℤ), []), ((3:ℤ), [])])
          [((1:ℤ), [(10:ℤ), 20, 30]), ((2:ℤ), []), ((3:ℤ), [])]).trace := by
    rw [ht]
    decide
  exact ⟨by decide, claim10_removal_safe _ (by decide) _ hmem⟩
